import Mathlib

/-!
Verification of the redaction and advisory-classification core of the `que`
log-analysis tool, against a shallow embedding of its Go sources.

Text is modelled as `List Char`.  The embedding covers:
* `internal/sanitizer/sanitizer.go` — `RedactWithDetails`, `Redact`,
  `getRedactionPlaceholder`, with the gitleaks detector abstracted as a
  function `List Char → List Finding` (it is an interface in the source,
  instantiated by mocks in tests);
* `internal/advisor/advisor.go` — `extractJSON`, `parseAndFormatResponse`
  (post-JSON-decoding rendering), the error path of `Advise`, and the
  interactive conversation loop of `RunInteractive`;
* the `EvidenceString` JSON normalisation quoted in the repository README.

Go string primitives used by that code (`strings.ReplaceAll`, `strings.Count`,
`strings.Contains`, `strings.ToLower`, `strings.TrimSpace`, `strings.Split`,
`strings.Join`) are embedded below with their documented Go semantics
(left-to-right, non-overlapping matching).  Case folding and white-space
trimming are modelled on the ASCII range, which is the range exercised by the
rule identifiers, placeholders and status keywords of this program.
-/

namespace Que

/-- ASCII white-space recognised by Go `unicode.IsSpace` (the ASCII range of
`strings.TrimSpace`): space, `\t`, `\n`, `\v`, `\f`, `\r`. -/
def isSpaceGo (c : Char) : Bool :=
  c.toNat = 32 || c.toNat = 9 || c.toNat = 10 || c.toNat = 11 || c.toNat = 12 || c.toNat = 13

/-- `strings.TrimSpace`: drop white-space from both ends. -/
def trimSpace (s : List Char) : List Char :=
  ((s.dropWhile isSpaceGo).reverse.dropWhile isSpaceGo).reverse

/-- ASCII case folding of one character (`unicode.ToLower` restricted to
ASCII): `A`..`Z` map to `a`..`z`, everything else is unchanged. -/
def toLowerChar (c : Char) : Char :=
  if h : 65 ≤ c.toNat ∧ c.toNat ≤ 90 then
    ⟨c.val + 32, by
      rcases h with ⟨h1, h2⟩
      left
      show (c.val + 32).toNat < (55296 : UInt32).toNat
      rw [UInt32.toNat_add]
      have hb : c.toNat = c.val.toNat := rfl
      have h4 : (55296 : UInt32).toNat = 55296 := by decide
      have h5 : (32 : UInt32).toNat = 32 := by decide
      have h6 : UInt32.size = 4294967296 := by decide
      rw [h4, h5, h6]
      omega⟩
  else c

/-- `strings.ToLower` (ASCII model): fold every character. -/
def toLowerStr (s : List Char) : List Char :=
  s.map toLowerChar

/-- `strings.Contains s sub`: does `sub` occur as a contiguous substring? -/
def containsSub (s sub : List Char) : Bool :=
  match s with
  | [] => sub.isPrefixOf []
  | _ :: rest => sub.isPrefixOf s || containsSub rest sub

/-- `strings.ReplaceAll t old new`: replace every non-overlapping occurrence
of `old` in `t` by `new`, scanning left to right.  The source never calls it
with an empty `old` (empty secrets are skipped beforehand); for an empty
`old` this model is the identity. -/
def replaceAll (t old new : List Char) : List Char :=
  match t with
  | [] => []
  | c :: rest =>
    if old ≠ [] ∧ old.isPrefixOf (c :: rest) then
      new ++ replaceAll ((c :: rest).drop old.length) old new
    else
      c :: replaceAll rest old new
termination_by t.length
decreasing_by
  · simp only [List.length_drop]
    rename_i h
    have : 1 ≤ old.length := List.length_pos.mpr h.1
    simp [List.length_cons]
    omega
  · simp [List.length_cons]

/-- `strings.Count t old`: number of non-overlapping occurrences of `old`
in `t`, scanning left to right (again `old` is never empty at call sites). -/
def countOcc (t old : List Char) : Nat :=
  match t with
  | [] => 0
  | c :: rest =>
    if old ≠ [] ∧ old.isPrefixOf (c :: rest) then
      1 + countOcc ((c :: rest).drop old.length) old
    else
      countOcc rest old
termination_by t.length
decreasing_by
  · simp only [List.length_drop]
    rename_i h
    have : 1 ≤ old.length := List.length_pos.mpr h.1
    simp [List.length_cons]
    omega
  · simp [List.length_cons]

/-- `strings.Split t sep` for a non-empty separator, as used by the advisor
(splitting evidence and fix blocks on `"\n"`). -/
def splitOnSub (t sep : List Char) : List (List Char) :=
  match t with
  | [] => [[]]
  | c :: rest =>
    if sep ≠ [] ∧ sep.isPrefixOf (c :: rest) then
      [] :: splitOnSub ((c :: rest).drop sep.length) sep
    else
      match splitOnSub rest sep with
      | [] => [[c]]
      | piece :: pieces => (c :: piece) :: pieces
termination_by t.length
decreasing_by
  · simp only [List.length_drop]
    rename_i h
    have : 1 ≤ sep.length := List.length_pos.mpr h.1
    simp [List.length_cons]
    omega
  · simp [List.length_cons]

/-! ## Sanitizer (`internal/sanitizer/sanitizer.go`) -/

/-- `getRedactionPlaceholder` from `sanitizer.go`: ordered, case-insensitive
keyword dispatch on rule id and description, generic fallback. -/
def getRedactionPlaceholder (ruleID description : List Char) : List Char :=
  let ruleIDLower := toLowerStr ruleID
  let descLower := toLowerStr description
  if containsSub ruleIDLower ("aws".toList) then
    if containsSub ruleIDLower ("access".toList) || containsSub descLower ("access key".toList) then
      ("<REDACTED_AWS_ACCESS_KEY>".toList)
    else if containsSub ruleIDLower ("secret".toList) || containsSub descLower ("secret".toList) then
      ("<REDACTED_AWS_SECRET_KEY>".toList)
    else
      ("<REDACTED_AWS_CREDENTIAL>".toList)
  else if containsSub ruleIDLower ("github".toList) || containsSub descLower ("github".toList) then
    ("<REDACTED_GITHUB_TOKEN>".toList)
  else if containsSub ruleIDLower ("private".toList) || containsSub descLower ("private key".toList) then
    ("<REDACTED_PRIVATE_KEY>".toList)
  else if containsSub ruleIDLower ("api".toList) || containsSub descLower ("api key".toList) then
    ("<REDACTED_API_KEY>".toList)
  else if containsSub ruleIDLower ("bearer".toList) || containsSub descLower ("bearer".toList) then
    ("<REDACTED_BEARER_TOKEN>".toList)
  else if containsSub ruleIDLower ("token".toList) || containsSub descLower ("token".toList) then
    ("<REDACTED_TOKEN>".toList)
  else if containsSub ruleIDLower ("password".toList) || containsSub descLower ("password".toList) then
    ("<REDACTED_PASSWORD>".toList)
  else if containsSub ruleIDLower ("db-connection".toList) || containsSub descLower ("database connection".toList) then
    ("<REDACTED_DB_CONNECTION_STRING>".toList)
  else
    ("<REDACTED_SECRET>".toList)

/-- `report.Finding` (gitleaks), the fields carried through this program.
`Entropy` is a `float32` in the source; it is only ever copied verbatim into
a detail record, so it is carried opaquely as `Float` here. -/
structure Finding where
  RuleID : List Char
  Description : List Char
  Match : List Char
  Secret : List Char
  StartLine : Int
  EndLine : Int
  StartColumn : Int
  EndColumn : Int
  Entropy : Float
  File : List Char
  Tags : List (List Char)
  Fingerprint : List Char
deriving Repr

/-- `config.FindingDetail` from `internal/config`. -/
structure FindingDetail where
  RuleID : List Char
  Description : List Char
  Match : List Char
  Secret : List Char
  Source : List Char
  StartLine : Int
  EndLine : Int
  StartColumn : Int
  EndColumn : Int
  Entropy : Float
  File : List Char
  Tags : List (List Char)
  Fingerprint : List Char
deriving Repr

/-- The substitution secret of one finding: the `Match` field, falling back
to the `Secret` field when `Match` is empty (`RedactWithDetails`, first lines
of the per-finding loop). -/
def substitutionSecret (f : Finding) : List Char :=
  if f.Match = [] then f.Secret else f.Match

/-- The detail record built for one finding in the verbose branch of
`RedactWithDetails` (`Source` is the literal `"gitleaks"`). -/
def mkDetail (f : Finding) : FindingDetail :=
  { RuleID := f.RuleID, Description := f.Description, Match := f.Match,
    Secret := f.Secret, Source := ("gitleaks".toList),
    StartLine := f.StartLine, EndLine := f.EndLine,
    StartColumn := f.StartColumn, EndColumn := f.EndColumn,
    Entropy := f.Entropy, File := f.File, Tags := f.Tags,
    Fingerprint := f.Fingerprint }

/-- The per-finding collection loop of `RedactWithDetails`: findings whose
substitution secret is empty are skipped (`continue`); otherwise a detail
record is appended when `verbose`, and the secret is entered into the
`uniqueSecrets` map with its placeholder unless already present.  The Go map
is modelled as an association list in first-insertion order (Go map
iteration order is unspecified; this fixes one admissible order). -/
def collectFindings (verbose : Bool) (acc : List (List Char × List Char)) :
    List Finding → List FindingDetail × List (List Char × List Char)
  | [] => ([], acc)
  | f :: rest =>
    let secret := substitutionSecret f
    if secret = [] then
      collectFindings verbose acc rest
    else
      let ds := if verbose then [mkDetail f] else []
      let acc' :=
        if (acc.lookup secret).isSome then acc
        else acc ++ [(secret, getRedactionPlaceholder f.RuleID f.Description)]
      let r := collectFindings verbose acc' rest
      (ds ++ r.1, r.2)

/-- The substitution loop of `RedactWithDetails`: for each unique secret,
count its occurrences in the current text and, when positive, replace them
all and accumulate the count.  (The source's `redacted` set never blocks a
substitution: the keys of `uniqueSecrets` are pairwise distinct, so each
secret is visited once; the set is therefore not modelled.) -/
def redactPass : List (List Char × List Char) → List Char → List Char × Nat
  | [], text => (text, 0)
  | (secret, placeholder) :: rest, text =>
    let count := countOcc text secret
    if count > 0 then
      let r := redactPass rest (replaceAll text secret placeholder)
      (r.1, count + r.2)
    else
      redactPass rest text

/-- `RedactWithDetails` from `sanitizer.go`, with the gitleaks detector
abstracted as `detect` (`r.detector.DetectString`).  Returns the sanitized
text, the total replacement count, and the verbose details. -/
def RedactWithDetails (detect : List Char → List Finding) (input : List Char)
    (verbose : Bool) : List Char × Nat × List FindingDetail :=
  if input = [] then (input, 0, [])
  else
    let findings := detect input
    let c := collectFindings verbose [] findings
    let r := redactPass c.2 input
    (r.1, r.2, c.1)

/-- `Redact` from `sanitizer.go`: `RedactWithDetails` with `verbose = false`,
dropping the details. -/
def Redact (detect : List Char → List Finding) (input : List Char) :
    List Char × Nat :=
  ((RedactWithDetails detect input false).1, (RedactWithDetails detect input false).2.1)

/-- Specification-side reading of the classifier: an ordered priority table
of keyword conditions, first match wins, with the generic-secret placeholder
as final fallback.  Compared against `getRedactionPlaceholder` for claim C5. -/
def placeholderPriorityTable (ruleID description : List Char) : List (Bool × List Char) :=
  let rl := toLowerStr ruleID
  let dl := toLowerStr description
  [ (containsSub rl ("aws".toList) && (containsSub rl ("access".toList) || containsSub dl ("access key".toList)),
      ("<REDACTED_AWS_ACCESS_KEY>".toList)),
    (containsSub rl ("aws".toList) && (containsSub rl ("secret".toList) || containsSub dl ("secret".toList)),
      ("<REDACTED_AWS_SECRET_KEY>".toList)),
    (containsSub rl ("aws".toList), ("<REDACTED_AWS_CREDENTIAL>".toList)),
    (containsSub rl ("github".toList) || containsSub dl ("github".toList), ("<REDACTED_GITHUB_TOKEN>".toList)),
    (containsSub rl ("private".toList) || containsSub dl ("private key".toList), ("<REDACTED_PRIVATE_KEY>".toList)),
    (containsSub rl ("api".toList) || containsSub dl ("api key".toList), ("<REDACTED_API_KEY>".toList)),
    (containsSub rl ("bearer".toList) || containsSub dl ("bearer".toList), ("<REDACTED_BEARER_TOKEN>".toList)),
    (containsSub rl ("token".toList) || containsSub dl ("token".toList), ("<REDACTED_TOKEN>".toList)),
    (containsSub rl ("password".toList) || containsSub dl ("password".toList), ("<REDACTED_PASSWORD>".toList)),
    (containsSub rl ("db-connection".toList) || containsSub dl ("database connection".toList),
      ("<REDACTED_DB_CONNECTION_STRING>".toList)) ]

/-- First-match evaluation of an ordered rule table with a fallback. -/
def firstMatch : List (Bool × List Char) → List Char → List Char
  | [], fallback => fallback
  | (b, ph) :: rest, fallback => if b then ph else firstMatch rest fallback

/-! ## Advisor rendering (`internal/advisor/advisor.go`) -/

/-- Structure `config.LLMResponse`: the decoded structured reply.  The
`Evidence` field holds the already-normalised `EvidenceString` (see
`evidenceFromJson`). -/
structure LLMResponse where
  Status : List Char
  RootCause : List Char
  Evidence : List Char
  Fix : List Char

/-- Fixed no-problem message of `parseAndFormatResponse` (case 1). -/
def noProblemMessage : List Char :=
  ("Your log looks good, no problems detected!\n".toList)

/-- Fixed insufficient-data warning of `parseAndFormatResponse` (case 2). -/
def insufficientDataWarning : List Char :=
  ("⚠️  Problem detected but insufficient data for a clear solution. Please provide more context or logs.".toList)

/-- Evidence/fix block rendering loop: split the trimmed block on newlines
and emit each line followed by a newline. -/
def renderLines (block : List Char) : List Char :=
  ((splitOnSub (trimSpace block) ("\n".toList)).map (fun line => line ++ ("\n".toList))).flatten

/-- Rendering part of `parseAndFormatResponse` (after a successful JSON
decode): lower-case and trim the status, then walk the ordered three-case
decision table.  Terminal colours are modelled in their disabled
(`color.NoColor`, piped-output) state, where `Sprint` returns its argument
unchanged and `Sprintln` of no arguments returns a bare newline. -/
def formatResponse (resp : LLMResponse) : List Char :=
  let status := toLowerStr (trimSpace resp.Status)
  if status = ("no_problem".toList) ∨
      (status = [] ∧ trimSpace resp.RootCause = [] ∧ trimSpace resp.Evidence = []) then
    noProblemMessage
  else if status = ("insufficient_data".toList) ∨
      (status = [] ∧ trimSpace resp.Fix = [] ∧ trimSpace resp.Evidence ≠ []) then
    ("Evidence".toList) ++ ("\n\n".toList) ++ renderLines resp.Evidence ++ ("\n".toList)
      ++ insufficientDataWarning ++ ("\n".toList)
  else
    (if trimSpace resp.RootCause ≠ [] then
        ("\n".toList) ++ ("Root Cause".toList) ++ ("\n\n".toList)
          ++ trimSpace resp.RootCause ++ ("\n\n".toList)
      else []) ++
    (if trimSpace resp.Evidence ≠ [] then
        ("Evidence".toList) ++ ("\n\n".toList) ++ renderLines resp.Evidence ++ ("\n".toList)
      else []) ++
    (if trimSpace resp.Fix ≠ [] then
        ("Fix".toList) ++ ("\n\n".toList) ++ renderLines resp.Fix
      else [])

/-! ## Response extraction (`extractJSON`, `advisor.go`)

The two regular expressions of `extractJSON` are embedded operationally
with Go's leftmost-first (backtracking-preference) semantics: an optional
group first tries to consume its literal, a greedy star backtracks from its
longest candidate, a lazy star grows from its shortest. -/

/-- White-space class of the regexp escape for white-space in Go (RE2):
tab, newline, form feed, carriage return, space. -/
def isRegexSpace (c : Char) : Bool :=
  c = '\t' || c = '\n' || c = '\x0c' || c = '\r' || c = ' '

/-- Index of the first occurrence of `pat` in the list (leftmost search for
a literal), if any. -/
def findSubIdx (pat : List Char) : List Char → Option Nat
  | [] => if pat.isPrefixOf [] then some 0 else none
  | c :: rest =>
    if pat.isPrefixOf (c :: rest) then some 0
    else (findSubIdx pat rest).map (· + 1)

/-- Lazy interior of the fence pattern followed by the literal
newline-plus-closing-fence: the shortest content ending right before the
first occurrence of that literal. -/
def fenceContent (rest : List Char) : Option (List Char) :=
  (findSubIdx (("\n".toList) ++ ("```".toList)) rest).map (fun m => rest.take m)

/-- Positions of the newline character inside the white-space run, tried
greedily (largest backtracking position of the white-space star first). -/
def newlinePositionsDesc (run : List Char) : List Nat :=
  ((List.range run.length).filter (fun k => run.get? k == some '\n')).reverse

def firstSomeIdx (f : Nat → Option (List Char)) : List Nat → Option (List Char)
  | [] => none
  | k :: ks => (f k) <|> firstSomeIdx f ks

/-- Matching of white-space-star-then-newline-then-lazy-content after the
opening fence and optional tag: the greedy white-space star consumes up to a
newline of the leading white-space run, backtracking from the longest
candidate. -/
def fenceSpace (t : List Char) : Option (List Char) :=
  firstSomeIdx (fun k => fenceContent (t.drop (k + 1)))
    (newlinePositionsDesc (t.takeWhile isRegexSpace))

/-- Optional `json` tag group: the regexp engine first tries to consume the
literal tag, then falls back to the empty alternative. -/
def fenceAfterTicks (t : List Char) : Option (List Char) :=
  (if ("json".toList).isPrefixOf t then fenceSpace (t.drop 4) else none) <|> fenceSpace t

/-- Match of the whole fenced-block pattern anchored at the start of `u`. -/
def fenceAt (u : List Char) : Option (List Char) :=
  if ("```".toList).isPrefixOf u then fenceAfterTicks (u.drop 3) else none

/-- Leftmost match of the fenced-code-block regexp of `extractJSON`
(backticks, optional `json` tag, white-space, newline, lazy interior,
newline, backticks), returning the first capture group (the interior). -/
def fenceSearch : List Char → Option (List Char)
  | [] => none
  | c :: rest => fenceAt (c :: rest) <|> fenceSearch rest

/-- Leftmost-then-greedy match of the brace regexp of `extractJSON` (an
opening brace, a greedy dot-star, a closing brace), returning the whole
match: from the first opening brace that has a later closing brace, through
the last closing brace of the text. -/
def braceSearch (s : List Char) : Option (List Char) :=
  match s.dropWhile (fun c => !(c == '{')) with
  | [] => none
  | c :: t =>
    if '}' ∈ t then
      some (c :: (t.reverse.dropWhile (fun c => !(c == '}'))).reverse)
    else none

/-- Function `extractJSON` from `advisor.go`: first a fenced code block
(optionally tagged `json`), then a brace-delimited span, then the trimmed
raw reply. -/
def extractJSON (response : List Char) : List Char :=
  match fenceSearch response with
  | some inner => trimSpace inner
  | none =>
    match braceSearch response with
    | some m => trimSpace m
    | none => trimSpace response

/-! ## JSON decoding boundary (`Advise` failure path, `EvidenceString`) -/

/-- Function `parseAndFormatResponse` from `advisor.go`, with the
`encoding/json` deserialisation of `config.LLMResponse` abstracted as
`parse` (a standard-library capability, like the detector): extract the
JSON candidate, decode it, and render; a decode failure is wrapped as in
the `failed to parse JSON` format of the source. -/
def parseAndFormatResponse (parse : List Char → Except (List Char) LLMResponse)
    (rawResponse : List Char) : Except (List Char) (List Char) :=
  let jsonStr := extractJSON rawResponse
  match parse jsonStr with
  | .error e => .error (("failed to parse JSON: ".toList) ++ e)
  | .ok llmResp => .ok (formatResponse llmResp)

/-- Response handling of `Advise` after a successful query: return the
formatted advisory, or — when parsing fails — the
`Error parsing LLM response` message built by the source's format string,
which carries the error and the full raw response, with a nil error either
way. -/
def adviseFormat (parse : List Char → Except (List Char) LLMResponse)
    (response : List Char) : List Char :=
  match parseAndFormatResponse parse response with
  | .ok formatted => formatted
  | .error e =>
    ("Error parsing LLM response: ".toList) ++ e
      ++ ("\n\nRaw response:\n".toList) ++ response

/-- A JSON document, as produced by the `encoding/json` tokenizer. -/
inductive JsonValue where
  | null
  | bool (b : Bool)
  | num (n : Int)
  | str (s : List Char)
  | arr (elems : List JsonValue)
  | obj (fields : List (List Char × JsonValue))

/-- Decoding of one array element into a `string` slot, as `json.Unmarshal`
does: a JSON string stores its value, a JSON `null` leaves the zero value,
anything else fails. -/
def elemString : JsonValue → Option (List Char)
  | .str s => some s
  | .null => some []
  | _ => none

def elemStrings : List JsonValue → Option (List (List Char))
  | [] => some []
  | v :: vs =>
    match elemString v, elemStrings vs with
    | some s, some ss => some (s :: ss)
    | _, _ => none

/-- Method `EvidenceString.UnmarshalJSON` (quoted in the repository
README): first try to decode the evidence as a JSON string; failing that,
as an array of strings joined with newlines; anything else is a decode
error. -/
def evidenceFromJson : JsonValue → Except (List Char) (List Char)
  | .str s => .ok s
  | .null => .ok []
  | .arr elems =>
    match elemStrings elems with
    | some ss => .ok (List.intercalate ("\n".toList) ss)
    | none => .error ("cannot unmarshal value into EvidenceString".toList)
  | _ => .error ("cannot unmarshal value into EvidenceString".toList)

/-! ## Interactive conversation loop (`RunInteractive`, `advisor.go`) -/

/-- Exit sentinels of the interactive loop, compared after trimming. -/
def exitCommand (u : List Char) : Bool :=
  u = ("exit".toList) || u = ("quit".toList) || u = ("q".toList)

/-- Read-eval loop of `RunInteractive`, over an explicit list of input
lines (end of the list is end of input on the control stream) and with the
query capability `client.QueryWithHistory` abstracted as `query`, failures
as `none`.  Empty trimmed input is skipped, an exit sentinel stops the
session, a failed query is reported and skipped, and a successful turn
appends the question and the answer to the history. -/
def runInteractiveLoop (query : List (List Char) → List Char → Option (List Char)) :
    List (List Char) → List (List Char) → List (List Char)
  | history, [] => history
  | history, line :: rest =>
    let userInput := trimSpace line
    if userInput = [] then runInteractiveLoop query history rest
    else if exitCommand userInput then history
    else
      match query history userInput with
      | none => runInteractiveLoop query history rest
      | some response => runInteractiveLoop query (history ++ [userInput, response]) rest

/-- Question/answer pairs of the turns that complete successfully, in
session order: the audit counterpart of `runInteractiveLoop`. -/
def successfulTurns (query : List (List Char) → List Char → Option (List Char)) :
    List (List Char) → List (List Char) → List (List Char × List Char)
  | _, [] => []
  | history, line :: rest =>
    let userInput := trimSpace line
    if userInput = [] then successfulTurns query history rest
    else if exitCommand userInput then []
    else
      match query history userInput with
      | none => successfulTurns query history rest
      | some response =>
        (userInput, response) :: successfulTurns query (history ++ [userInput, response]) rest

/-! ## Concrete fixtures used by counterexamples and witnesses -/

/-- A finding whose matched text is a substring of its own placeholder. -/
def tokenFinding : Finding :=
  { RuleID := ("token".toList), Description := ("a token rule".toList),
    Match := ("TOKEN".toList), Secret := [],
    StartLine := 1, EndLine := 1, StartColumn := 0, EndColumn := 5,
    Entropy := 0.0, File := [], Tags := [], Fingerprint := [] }

def tokenDetect : List Char → List Finding := fun _ => [tokenFinding]

/-- A finding with both an empty match and an empty secret. -/
def emptyFinding : Finding :=
  { RuleID := ("generic-rule".toList), Description := ("a rule".toList),
    Match := [], Secret := [],
    StartLine := 1, EndLine := 1, StartColumn := 0, EndColumn := 0,
    Entropy := 0.0, File := [], Tags := [], Fingerprint := [] }

/-- A well-behaved finding: its lower-case secret shares no character with
any placeholder. -/
def ghFinding : Finding :=
  { RuleID := ("github-token".toList), Description := ("github fine-grained pat".toList),
    Match := ("ghpabc".toList), Secret := [],
    StartLine := 1, EndLine := 1, StartColumn := 2, EndColumn := 8,
    Entropy := 3.5, File := [], Tags := [], Fingerprint := [] }

def ghDetect : List Char → List Finding := fun _ => [ghFinding]

/-- A JSON decoder that always fails, for exercising the failure path. -/
def failParse : List Char → Except (List Char) LLMResponse :=
  fun _ => .error ("bad".toList)

/-- A query capability that always fails, for exercising a failed turn. -/
def noneQuery : List (List Char) → List Char → Option (List Char) :=
  fun _ _ => none

/-! ## Unfolding equations for the fuel-free recursive string primitives -/

theorem replaceAll_nil (old new : List Char) : replaceAll [] old new = [] := by
  rw [replaceAll]

theorem replaceAll_cons (c : Char) (rest old new : List Char) :
    replaceAll (c :: rest) old new =
      if old ≠ [] ∧ old.isPrefixOf (c :: rest) then
        new ++ replaceAll ((c :: rest).drop old.length) old new
      else
        c :: replaceAll rest old new := by
  rw [replaceAll]

theorem countOcc_nil (old : List Char) : countOcc [] old = 0 := by rw [countOcc]

theorem countOcc_cons (c : Char) (rest old : List Char) :
    countOcc (c :: rest) old =
      if old ≠ [] ∧ old.isPrefixOf (c :: rest) then
        1 + countOcc ((c :: rest).drop old.length) old
      else
        countOcc rest old := by
  rw [countOcc]

/-! ## Properties of `replaceAll` and `countOcc` -/

/-- An occurrence of `u` inside an append lies inside the right part when
`u` is non-empty and shares no character with the left part. -/
theorem infix_right_of_disjoint {u p y : List Char} (hu : u ≠ [])
    (hd : ∀ c ∈ u, c ∉ p) (h : u <:+: p ++ y) : u <:+: y := by
  obtain ⟨a, b, hab⟩ := h
  rw [List.append_assoc] at hab
  rcases List.append_eq_append_iff.mp hab with ⟨a', ha', hrest⟩ | ⟨c', hc', hrest⟩
  · cases a' with
    | nil =>
      simp at hrest
      exact ⟨[], b, by simp [hrest]⟩
    | cons ah at' =>
      cases u with
      | nil => exact absurd rfl hu
      | cons uh ut =>
        have hhead : uh = ah := by
          have := hrest
          simp [List.cons_append] at this
          exact this.1
        have hmem : ah ∈ p := by
          rw [ha']
          exact List.mem_append_right a (List.mem_cons_self ah at')
        exact absurd (hhead ▸ hmem) (hd uh (List.mem_cons_self uh ut))
  · exact ⟨c', b, by rw [hrest, List.append_assoc]⟩

/-- A non-empty prefix of `replaceAll t s p` that shares no character with
`p` is a prefix of `t` itself. -/
theorem prefix_of_replaceAll {s p : List Char} (hp : p ≠ []) :
    ∀ (n : Nat) (t u : List Char), t.length ≤ n → u ≠ [] →
      (∀ c ∈ u, c ∉ p) → u <+: replaceAll t s p → u <+: t := by
  intro n
  induction n with
  | zero =>
    intro t u hlen hu hd hpre
    have ht : t = [] := List.eq_nil_of_length_eq_zero (Nat.le_zero.mp hlen)
    subst ht
    rw [replaceAll_nil] at hpre
    exact absurd (List.prefix_nil.mp hpre) hu
  | succ n ih =>
    intro t u hlen hu hd hpre
    cases t with
    | nil =>
      rw [replaceAll_nil] at hpre
      exact absurd (List.prefix_nil.mp hpre) hu
    | cons c rest =>
      rw [replaceAll_cons] at hpre
      by_cases hcond : s ≠ [] ∧ s.isPrefixOf (c :: rest)
      · rw [if_pos hcond] at hpre
        cases u with
        | nil => exact absurd rfl hu
        | cons uh ut =>
          cases p with
          | nil => exact absurd rfl hp
          | cons ph pt =>
            have : uh = ph := by
              rcases hpre with ⟨k, hk⟩
              simp [List.cons_append] at hk
              exact hk.1
            exact absurd (this ▸ List.mem_cons_self ph pt)
              (hd uh (List.mem_cons_self uh ut))
      · rw [if_neg hcond] at hpre
        cases u with
        | nil => exact absurd rfl hu
        | cons uh ut =>
          rcases List.cons_prefix_cons.mp hpre with ⟨hh, hpre'⟩
          subst hh
          cases ut with
          | nil => exact List.cons_prefix_cons.mpr ⟨rfl, List.nil_prefix⟩
          | cons x xs =>
            have hrest : (x :: xs) <+: rest := by
              refine ih rest (x :: xs) ?_ (by simp) ?_ hpre'
              · simpa using Nat.le_of_succ_le_succ hlen
              · intro ch hch
                exact hd ch (List.mem_cons_of_mem _ hch)
            exact List.cons_prefix_cons.mpr ⟨rfl, hrest⟩

/-- After `replaceAll t s p`, the pattern `s` no longer occurs, provided
`s` is non-empty and shares no character with the non-empty replacement
`p`. -/
theorem not_infix_replaceAll_self {s p : List Char} (hs : s ≠ []) (hp : p ≠ [])
    (hd : ∀ c ∈ s, c ∉ p) :
    ∀ (n : Nat) (t : List Char), t.length ≤ n → ¬ s <:+: replaceAll t s p := by
  intro n
  induction n with
  | zero =>
    intro t hlen h
    have ht : t = [] := List.eq_nil_of_length_eq_zero (Nat.le_zero.mp hlen)
    subst ht
    rw [replaceAll_nil] at h
    exact hs (List.infix_nil.mp h)
  | succ n ih =>
    intro t hlen h
    cases t with
    | nil =>
      rw [replaceAll_nil] at h
      exact hs (List.infix_nil.mp h)
    | cons c rest =>
      rw [replaceAll_cons] at h
      by_cases hcond : s ≠ [] ∧ s.isPrefixOf (c :: rest)
      · rw [if_pos hcond] at h
        have h' := infix_right_of_disjoint hs hd h
        refine ih ((c :: rest).drop s.length) ?_ h'
        have hs1 : 1 ≤ s.length := List.length_pos.mpr hs
        simp only [List.length_drop, List.length_cons]
        simp only [List.length_cons] at hlen
        omega
      · rw [if_neg hcond] at h
        rcases List.infix_cons_iff.mp h with hpre | hinf
        · cases s with
          | nil => exact hs rfl
          | cons sh st =>
            rcases List.cons_prefix_cons.mp hpre with ⟨hh, hpre'⟩
            subst hh
            cases st with
            | nil =>
              exact hcond ⟨hs, by simp [List.isPrefixOf_iff_prefix]⟩
            | cons x xs =>
              have : (x :: xs) <+: rest := by
                refine prefix_of_replaceAll hp n rest (x :: xs) ?_ (by simp) ?_ hpre'
                · simpa using Nat.le_of_succ_le_succ hlen
                · intro ch hch
                  exact hd ch (List.mem_cons_of_mem _ hch)
              refine hcond ⟨hs, ?_⟩
              rw [List.isPrefixOf_iff_prefix]
              exact List.cons_prefix_cons.mpr ⟨rfl, this⟩
        · exact ih rest (by simpa using Nat.le_of_succ_le_succ hlen) hinf

/-- Replacement creates no new occurrence of a string `u` that shares no
character with `p`: if `u` did not occur in `t`, it does not occur in
`replaceAll t s p`. -/
theorem not_infix_replaceAll_other {s p u : List Char} (hp : p ≠ [])
    (hd : ∀ c ∈ u, c ∉ p) :
    ∀ (n : Nat) (t : List Char), t.length ≤ n → ¬ u <:+: t →
      ¬ u <:+: replaceAll t s p := by
  intro n
  induction n with
  | zero =>
    intro t hlen ht h
    have : t = [] := List.eq_nil_of_length_eq_zero (Nat.le_zero.mp hlen)
    subst this
    rw [replaceAll_nil] at h
    exact ht h
  | succ n ih =>
    intro t hlen ht h
    have hu : u ≠ [] := by
      rintro rfl
      exact ht (List.nil_infix)
    cases t with
    | nil =>
      rw [replaceAll_nil] at h
      exact hu (List.infix_nil.mp h)
    | cons c rest =>
      rw [replaceAll_cons] at h
      by_cases hcond : s ≠ [] ∧ s.isPrefixOf (c :: rest)
      · rw [if_pos hcond] at h
        have h' := infix_right_of_disjoint hu hd h
        have hdroplen : ((c :: rest).drop s.length).length ≤ n := by
          have hs1 : 1 ≤ s.length := List.length_pos.mpr hcond.1
          simp only [List.length_drop, List.length_cons]
          simp only [List.length_cons] at hlen
          omega
        have hdropni : ¬ u <:+: (c :: rest).drop s.length := by
          intro hx
          exact ht (hx.trans (List.drop_suffix _ _).isInfix)
        exact ih _ hdroplen hdropni h'
      · rw [if_neg hcond] at h
        rcases List.infix_cons_iff.mp h with hpre | hinf
        · cases u with
          | nil => exact hu rfl
          | cons uh ut =>
            rcases List.cons_prefix_cons.mp hpre with ⟨hh, hpre'⟩
            subst hh
            cases ut with
            | nil =>
              exact ht (List.infix_cons_iff.mpr (Or.inl (by simp)))
            | cons x xs =>
              have : (x :: xs) <+: rest := by
                refine prefix_of_replaceAll hp n rest (x :: xs) ?_ (by simp) ?_ hpre'
                · simpa using Nat.le_of_succ_le_succ hlen
                · intro ch hch
                  exact hd ch (List.mem_cons_of_mem _ hch)
              exact ht (List.infix_cons_iff.mpr
                (Or.inl (List.cons_prefix_cons.mpr ⟨rfl, this⟩)))
        · have hrest : ¬ u <:+: rest := by
            intro hx
            exact ht (List.infix_cons_iff.mpr (Or.inr hx))
          exact ih rest (by simpa using Nat.le_of_succ_le_succ hlen) hrest hinf

/-- A positive occurrence count exhibits an occurrence. -/
theorem infix_of_countOcc_pos :
    ∀ (n : Nat) (t s : List Char), t.length ≤ n → 0 < countOcc t s → s <:+: t := by
  intro n
  induction n with
  | zero =>
    intro t s hlen hpos
    have : t = [] := List.eq_nil_of_length_eq_zero (Nat.le_zero.mp hlen)
    subst this
    rw [countOcc_nil] at hpos
    exact absurd hpos (by simp)
  | succ n ih =>
    intro t s hlen hpos
    cases t with
    | nil =>
      rw [countOcc_nil] at hpos
      exact absurd hpos (by simp)
    | cons c rest =>
      rw [countOcc_cons] at hpos
      by_cases hcond : s ≠ [] ∧ s.isPrefixOf (c :: rest)
      · exact (List.isPrefixOf_iff_prefix.mp hcond.2).isInfix
      · rw [if_neg hcond] at hpos
        have := ih rest s (by simpa using Nat.le_of_succ_le_succ hlen) hpos
        exact List.infix_cons_iff.mpr (Or.inr this)

/-- An actual occurrence gives a positive count. -/
theorem countOcc_pos_of_occurs :
    ∀ (n : Nat) (t s : List Char), t.length ≤ n → s ≠ [] → s <:+: t →
      0 < countOcc t s := by
  intro n
  induction n with
  | zero =>
    intro t s hlen hs hinf
    have : t = [] := List.eq_nil_of_length_eq_zero (Nat.le_zero.mp hlen)
    subst this
    exact absurd (List.infix_nil.mp hinf) hs
  | succ n ih =>
    intro t s hlen hs hinf
    cases t with
    | nil => exact absurd (List.infix_nil.mp hinf) hs
    | cons c rest =>
      rw [countOcc_cons]
      by_cases hcond : s ≠ [] ∧ s.isPrefixOf (c :: rest)
      · rw [if_pos hcond]
        omega
      · rw [if_neg hcond]
        rcases List.infix_cons_iff.mp hinf with hpre | hinf'
        · exact absurd ⟨hs, List.isPrefixOf_iff_prefix.mpr hpre⟩ hcond
        · exact ih rest s (by simpa using Nat.le_of_succ_le_succ hlen) hs hinf'

/-! ## Properties of the substitution pass and the collection loop -/

/-- The substitution pass never (re)introduces an occurrence of a string
`u` that shares no character with any placeholder in the pair list. -/
theorem redactPass_preserves_absence {u : List Char} :
    ∀ (pairs : List (List Char × List Char)) (t : List Char),
      (∀ pr ∈ pairs, pr.2 ≠ [] ∧ ∀ c ∈ u, c ∉ pr.2) →
      ¬ u <:+: t → ¬ u <:+: (redactPass pairs t).1 := by
  intro pairs
  induction pairs with
  | nil => intro t _ ht; simpa [redactPass] using ht
  | cons pr rest ih =>
    intro t hcond ht
    obtain ⟨secret, placeholder⟩ := pr
    have hhead := hcond (secret, placeholder) (List.mem_cons_self _ _)
    simp only [redactPass]
    by_cases hcnt : 0 < countOcc t secret
    · rw [if_pos hcnt]
      refine ih (replaceAll t secret placeholder) ?_ ?_
      · intro q hq; exact hcond q (List.mem_cons_of_mem _ hq)
      · exact not_infix_replaceAll_other hhead.1 hhead.2 t.length t (Nat.le_refl _) ht
    · rw [if_neg hcnt]
      refine ih t ?_ ht
      intro q hq; exact hcond q (List.mem_cons_of_mem _ hq)

/-- After the substitution pass, no secret of the pair list occurs in the
resulting text, provided all secrets and placeholders are non-empty and no
secret shares a character with any placeholder. -/
theorem redactPass_removes_secrets :
    ∀ (pairs : List (List Char × List Char)) (t : List Char),
      (∀ pr ∈ pairs, pr.1 ≠ [] ∧ pr.2 ≠ []) →
      (∀ pr ∈ pairs, ∀ pr' ∈ pairs, ∀ c ∈ pr.1, c ∉ pr'.2) →
      ∀ pr ∈ pairs, ¬ pr.1 <:+: (redactPass pairs t).1 := by
  intro pairs
  induction pairs with
  | nil => intro t _ _ pr hpr; exact absurd hpr (List.not_mem_nil pr)
  | cons hd rest ih =>
    intro t hne hdisj pr hpr
    obtain ⟨secret, placeholder⟩ := hd
    have hheadne := hne (secret, placeholder) (List.mem_cons_self _ _)
    have hrestcond : ∀ q ∈ rest, q.1 ≠ [] ∧ q.2 ≠ [] :=
      fun q hq => hne q (List.mem_cons_of_mem _ hq)
    have hrestdisj : ∀ q ∈ rest, ∀ q' ∈ rest, ∀ c ∈ q.1, c ∉ q'.2 :=
      fun q hq q' hq' => hdisj q (List.mem_cons_of_mem _ hq) q' (List.mem_cons_of_mem _ hq')
    rcases List.mem_cons.mp hpr with heq | hmem
    · subst heq
      simp only [redactPass]
      by_cases hcnt : 0 < countOcc t secret
      · rw [if_pos hcnt]
        have hgone : ¬ secret <:+: replaceAll t secret placeholder :=
          not_infix_replaceAll_self hheadne.1 hheadne.2
            (hdisj (secret, placeholder) (List.mem_cons_self _ _)
              (secret, placeholder) (List.mem_cons_self _ _))
            t.length t (Nat.le_refl _)
        refine redactPass_preserves_absence rest (replaceAll t secret placeholder) ?_ hgone
        intro q hq
        exact ⟨(hrestcond q hq).2,
          hdisj (secret, placeholder) (List.mem_cons_self _ _) q (List.mem_cons_of_mem _ hq)⟩
      · rw [if_neg hcnt]
        have hni : ¬ secret <:+: t := by
          intro hx
          exact hcnt (countOcc_pos_of_occurs t.length t secret (Nat.le_refl _) hheadne.1 hx)
        refine redactPass_preserves_absence rest t ?_ hni
        intro q hq
        exact ⟨(hrestcond q hq).2,
          hdisj (secret, placeholder) (List.mem_cons_self _ _) q (List.mem_cons_of_mem _ hq)⟩
    · simp only [redactPass]
      by_cases hcnt : 0 < countOcc t secret
      · rw [if_pos hcnt]
        exact ih (replaceAll t secret placeholder) hrestcond hrestdisj pr hmem
      · rw [if_neg hcnt]
        exact ih t hrestcond hrestdisj pr hmem

/-- If no secret of the pair list occurs at all, the substitution pass is
the identity and reports zero replacements. -/
theorem redactPass_noop :
    ∀ (pairs : List (List Char × List Char)) (t : List Char),
      (∀ pr ∈ pairs, ¬ pr.1 <:+: t) →
      redactPass pairs t = (t, 0) := by
  intro pairs
  induction pairs with
  | nil => intro t _; rfl
  | cons hd rest ih =>
    intro t hni
    obtain ⟨secret, placeholder⟩ := hd
    have hcnt : ¬ 0 < countOcc t secret := by
      intro hx
      exact hni (secret, placeholder) (List.mem_cons_self _ _)
        (infix_of_countOcc_pos t.length t secret (Nat.le_refl _) hx)
    simp only [redactPass]
    rw [if_neg hcnt]
    exact ih t (fun q hq => hni q (List.mem_cons_of_mem _ hq))

/-- The classifier always yields one of its eleven fixed literals, all
non-empty; in particular it is never the empty string. -/
theorem getRedactionPlaceholder_ne_nil (ruleID description : List Char) :
    getRedactionPlaceholder ruleID description ≠ [] := by
  unfold getRedactionPlaceholder
  simp only []
  split_ifs <;> simp

theorem exists_of_lookup_isSome {l : List (List Char × List Char)} {a : List Char}
    (h : (l.lookup a).isSome) : ∃ b, (a, b) ∈ l := by
  induction l with
  | nil => simp [List.lookup] at h
  | cons hd rest ih =>
    obtain ⟨k, v⟩ := hd
    by_cases hk : a = k
    · subst hk
      exact ⟨v, List.mem_cons_self _ _⟩
    · rw [List.lookup_cons] at h
      have hbeq : (a == k) = false := beq_false_of_ne hk
      rw [hbeq] at h
      obtain ⟨b, hb⟩ := ih h
      exact ⟨b, List.mem_cons_of_mem _ hb⟩

/-- Pairs already accumulated survive the collection loop. -/
theorem collectFindings_acc_subset (verbose : Bool) :
    ∀ (fs : List Finding) (acc : List (List Char × List Char)) (pr : List Char × List Char),
      pr ∈ acc → pr ∈ (collectFindings verbose acc fs).2 := by
  intro fs
  induction fs with
  | nil => intro acc pr h; simpa [collectFindings] using h
  | cons f rest ih =>
    intro acc pr h
    simp only [collectFindings]
    by_cases hsec : substitutionSecret f = []
    · rw [if_pos hsec]; exact ih acc pr h
    · rw [if_neg hsec]
      by_cases hlk : ((acc.lookup (substitutionSecret f)).isSome : Prop)
      · simpa [hlk] using ih acc pr h
      · simp only [hlk, if_neg, if_false]
        exact ih _ pr (List.mem_append_left _ h)

/-- Every pair produced by the collection loop is either an accumulator
pair or the secret/placeholder pair of one of the findings. -/
theorem collectFindings_mem (verbose : Bool) :
    ∀ (fs : List Finding) (acc : List (List Char × List Char)) (pr : List Char × List Char),
      pr ∈ (collectFindings verbose acc fs).2 →
      pr ∈ acc ∨ ∃ f ∈ fs, substitutionSecret f ≠ [] ∧
        pr = (substitutionSecret f, getRedactionPlaceholder f.RuleID f.Description) := by
  intro fs
  induction fs with
  | nil => intro acc pr h; exact Or.inl (by simpa [collectFindings] using h)
  | cons f rest ih =>
    intro acc pr h
    simp only [collectFindings] at h
    by_cases hsec : substitutionSecret f = []
    · rw [if_pos hsec] at h
      rcases ih acc pr h with hacc | ⟨g, hg, hgne, hgeq⟩
      · exact Or.inl hacc
      · exact Or.inr ⟨g, List.mem_cons_of_mem _ hg, hgne, hgeq⟩
    · rw [if_neg hsec] at h
      by_cases hlk : ((acc.lookup (substitutionSecret f)).isSome : Prop)
      · simp only [if_pos hlk] at h
        rcases ih acc pr h with hacc | ⟨g, hg, hgne, hgeq⟩
        · exact Or.inl hacc
        · exact Or.inr ⟨g, List.mem_cons_of_mem _ hg, hgne, hgeq⟩
      · simp only [if_neg hlk] at h
        rcases ih _ pr h with hacc | ⟨g, hg, hgne, hgeq⟩
        · rcases List.mem_append.mp hacc with h1 | h2
          · exact Or.inl h1
          · simp at h2
            exact Or.inr ⟨f, List.mem_cons_self _ _, hsec, h2⟩
        · exact Or.inr ⟨g, List.mem_cons_of_mem _ hg, hgne, hgeq⟩

/-- Every finding with a non-empty substitution secret has its secret
registered (with some placeholder) by the collection loop. -/
theorem collectFindings_covers (verbose : Bool) :
    ∀ (fs : List Finding) (acc : List (List Char × List Char)) (f : Finding),
      f ∈ fs → substitutionSecret f ≠ [] →
      ∃ ph, (substitutionSecret f, ph) ∈ (collectFindings verbose acc fs).2 := by
  intro fs
  induction fs with
  | nil => intro acc f h; exact absurd h (List.not_mem_nil f)
  | cons g rest ih =>
    intro acc f hf hne
    rcases List.mem_cons.mp hf with heq | hmem
    · subst heq
      simp only [collectFindings, if_neg hne]
      by_cases hlk : ((acc.lookup (substitutionSecret f)).isSome : Prop)
      · simp only [if_pos hlk]
        obtain ⟨b, hb⟩ := exists_of_lookup_isSome hlk
        exact ⟨b, collectFindings_acc_subset verbose rest acc _ hb⟩
      · simp only [if_neg hlk]
        refine ⟨getRedactionPlaceholder f.RuleID f.Description, ?_⟩
        exact collectFindings_acc_subset verbose rest _ _
          (List.mem_append_right _ (List.mem_singleton.mpr rfl))
    · simp only [collectFindings]
      by_cases hsec : substitutionSecret g = []
      · rw [if_pos hsec]; exact ih acc f hmem hne
      · rw [if_neg hsec]
        by_cases hlk : ((acc.lookup (substitutionSecret g)).isSome : Prop)
        · simp only [if_pos hlk]; exact ih acc f hmem hne
        · simp only [if_neg hlk]; exact ih _ f hmem hne

/-- The two side conditions of the substitution-pass lemmas hold for the
pair list computed from any finding list whose secrets share no character
with the placeholders assigned to the findings. -/
theorem pairs_conditions
    (detect : List Char → List Finding) (input : List Char) (verbose : Bool)
    (hdisj : ∀ f ∈ detect input, ∀ f' ∈ detect input,
      ∀ c ∈ substitutionSecret f, c ∉ getRedactionPlaceholder f'.RuleID f'.Description) :
    (∀ pr ∈ (collectFindings verbose [] (detect input)).2, pr.1 ≠ [] ∧ pr.2 ≠ []) ∧
    (∀ pr ∈ (collectFindings verbose [] (detect input)).2,
      ∀ pr' ∈ (collectFindings verbose [] (detect input)).2, ∀ c ∈ pr.1, c ∉ pr'.2) := by
  constructor
  · intro pr hpr
    rcases collectFindings_mem verbose (detect input) [] pr hpr with hacc | ⟨f, hf, hfne, hfeq⟩
    · exact absurd hacc (List.not_mem_nil pr)
    · subst hfeq
      exact ⟨hfne, getRedactionPlaceholder_ne_nil _ _⟩
  · intro pr hpr pr' hpr'
    rcases collectFindings_mem verbose (detect input) [] pr hpr with hacc | ⟨f, hf, hfne, hfeq⟩
    · exact absurd hacc (List.not_mem_nil pr)
    rcases collectFindings_mem verbose (detect input) [] pr' hpr' with hacc' | ⟨f', hf', hfne', hfeq'⟩
    · exact absurd hacc' (List.not_mem_nil pr')
    subst hfeq; subst hfeq'
    exact hdisj f hf f' hf'

/-- In verbose mode the collection loop records exactly one detail entry,
in order, for each finding whose substitution secret is non-empty. -/
theorem collectFindings_details :
    ∀ (fs : List Finding) (acc : List (List Char × List Char)),
      (collectFindings true acc fs).1
        = (fs.filter (fun f => substitutionSecret f != [])).map mkDetail := by
  intro fs
  induction fs with
  | nil => intro acc; simp [collectFindings]
  | cons f rest ih =>
    intro acc
    simp only [collectFindings]
    by_cases hsec : substitutionSecret f = []
    · rw [if_pos hsec]
      rw [ih acc]
      simp [List.filter_cons, hsec]
    · rw [if_neg hsec]
      by_cases hlk : ((acc.lookup (substitutionSecret f)).isSome : Prop)
      · simp only [if_pos hlk]
        rw [ih acc]
        simp [List.filter_cons, hsec]
      · simp only [if_neg hlk]
        rw [ih (acc ++ [(substitutionSecret f, getRedactionPlaceholder f.RuleID f.Description)])]
        simp [List.filter_cons, hsec]

/-! ## Case folding and trimming: the status normalisation is idempotent -/

theorem toNat_toLowerChar (c : Char) :
    (toLowerChar c).toNat = if 65 ≤ c.toNat ∧ c.toNat ≤ 90 then c.toNat + 32 else c.toNat := by
  unfold toLowerChar
  split
  · next h =>
    show (c.val + 32).toNat = c.toNat + 32
    rw [UInt32.toNat_add]
    have hb : c.toNat = c.val.toNat := rfl
    have h3 : c.val.toNat ≤ 90 := by rw [← hb]; exact h.2
    show (c.val.toNat + (32 : UInt32).toNat) % UInt32.size = c.toNat + 32
    have h5 : (32 : UInt32).toNat = 32 := by decide
    have h6 : UInt32.size = 4294967296 := by decide
    rw [h5, h6, ← hb]
    omega
  · rfl

theorem toLowerChar_eq_self {c : Char} (h : ¬ (65 ≤ c.toNat ∧ c.toNat ≤ 90)) :
    toLowerChar c = c := by
  unfold toLowerChar
  rw [dif_neg h]

theorem isSpaceGo_toLowerChar (c : Char) : isSpaceGo (toLowerChar c) = isSpaceGo c := by
  unfold isSpaceGo
  rw [toNat_toLowerChar]
  by_cases h : 65 ≤ c.toNat ∧ c.toNat ≤ 90
  · rw [if_pos h]
    obtain ⟨h1, h2⟩ := h
    have hl : ((decide (c.toNat + 32 = 32) || decide (c.toNat + 32 = 9) ||
        decide (c.toNat + 32 = 10) || decide (c.toNat + 32 = 11) ||
        decide (c.toNat + 32 = 12) || decide (c.toNat + 32 = 13)) = false) := by
      simp only [Bool.or_eq_false_iff, decide_eq_false_iff_not]
      omega
    have hr : ((decide (c.toNat = 32) || decide (c.toNat = 9) ||
        decide (c.toNat = 10) || decide (c.toNat = 11) ||
        decide (c.toNat = 12) || decide (c.toNat = 13)) = false) := by
      simp only [Bool.or_eq_false_iff, decide_eq_false_iff_not]
      omega
    rw [hl, hr]
  · rw [if_neg h]

theorem toLowerChar_idem (c : Char) : toLowerChar (toLowerChar c) = toLowerChar c := by
  by_cases h : 65 ≤ c.toNat ∧ c.toNat ≤ 90
  · have hnat : (toLowerChar c).toNat = c.toNat + 32 := by rw [toNat_toLowerChar, if_pos h]
    have hnot : ¬ (65 ≤ (toLowerChar c).toNat ∧ (toLowerChar c).toNat ≤ 90) := by
      rw [hnat]; omega
    exact toLowerChar_eq_self hnot
  · conv_lhs => rw [toLowerChar_eq_self h]

theorem toLowerStr_idem (s : List Char) : toLowerStr (toLowerStr s) = toLowerStr s := by
  unfold toLowerStr
  rw [List.map_map]
  exact List.map_congr_left (fun c _ => toLowerChar_idem c)

theorem trimSpace_eq_rdrop (s : List Char) :
    trimSpace s = (s.dropWhile isSpaceGo).rdropWhile isSpaceGo := rfl

theorem trimSpace_toLowerStr (s : List Char) :
    trimSpace (toLowerStr s) = toLowerStr (trimSpace s) := by
  have hfun : (isSpaceGo ∘ toLowerChar) = isSpaceGo := funext isSpaceGo_toLowerChar
  unfold trimSpace toLowerStr
  rw [List.dropWhile_map, hfun, ← List.map_reverse, List.dropWhile_map, hfun,
    ← List.map_reverse]

theorem trimSpace_idem (s : List Char) : trimSpace (trimSpace s) = trimSpace s := by
  rw [trimSpace_eq_rdrop, trimSpace_eq_rdrop]
  have h1 : (((s.dropWhile isSpaceGo).rdropWhile isSpaceGo).dropWhile isSpaceGo)
      = (s.dropWhile isSpaceGo).rdropWhile isSpaceGo := by
    rw [List.dropWhile_eq_self_iff]
    intro hl
    have hpre : (s.dropWhile isSpaceGo).rdropWhile isSpaceGo <+: s.dropWhile isSpaceGo :=
      List.rdropWhile_prefix _ _
    have hlen : 0 < (s.dropWhile isSpaceGo).length :=
      Nat.lt_of_lt_of_le hl hpre.length_le
    have hget : ((s.dropWhile isSpaceGo).rdropWhile isSpaceGo).get ⟨0, hl⟩
        = (s.dropWhile isSpaceGo).get ⟨0, hlen⟩ := by
      have := List.IsPrefix.getElem hpre (by simpa using hl)
      simpa [List.get_eq_getElem] using this
    rw [hget]
    exact List.dropWhile_get_zero_not isSpaceGo s hlen
  rw [h1, List.rdropWhile_idempotent]

theorem statusNorm_idem (s : List Char) :
    toLowerStr (trimSpace (toLowerStr (trimSpace s))) = toLowerStr (trimSpace s) := by
  rw [trimSpace_toLowerStr, toLowerStr_idem, trimSpace_idem]

/-! ## Properties of the brace-span search -/

theorem braceSearch_of_decomp (a span b : List Char)
    (ha : '{' ∉ a) (hb : '}' ∉ b)
    (hhead : span.head? = some '{') (hlast : span.getLast? = some '}') :
    braceSearch (a ++ span ++ b) = some span := by
  obtain ⟨mid, rfl⟩ : ∃ mid, span = '{' :: mid := by
    cases span with
    | nil => simp at hhead
    | cons c cs =>
      have hc : c = '{' := by simpa using hhead
      exact ⟨cs, by rw [hc]⟩
  have hmid : mid ≠ [] := by
    rintro rfl
    simp at hlast
  obtain ⟨mrev, hmrev⟩ : ∃ mrev, mid.reverse = '}' :: mrev := by
    have : mid.reverse.head? = some '}' := by
      rw [List.head?_reverse]
      cases hm : mid.getLast? with
      | none => exact absurd (List.getLast?_eq_none_iff.mp hm) hmid
      | some x =>
        have := hlast
        rw [List.getLast?_cons, hm] at this
        simpa using this
    cases hrev : mid.reverse with
    | nil => rw [hrev] at this; simp at this
    | cons c cs =>
      rw [hrev] at this
      simp at this
      exact ⟨cs, by rw [this]⟩
  unfold braceSearch
  have hdropa : (a ++ ('{' :: mid) ++ b).dropWhile (fun c => !(c == '{'))
      = '{' :: (mid ++ b) := by
    rw [List.append_assoc, List.dropWhile_append]
    have h1 : a.dropWhile (fun c => !(c == '{')) = [] := by
      rw [List.dropWhile_eq_nil_iff]
      intro x hx
      simp only [Bool.not_eq_true']
      exact beq_false_of_ne (fun hc => ha (hc ▸ hx))
    rw [h1]
    simp [List.dropWhile_cons]
  rw [hdropa]
  have hmem : '}' ∈ mid ++ b := by
    apply List.mem_append_left
    have : '}' ∈ mid.reverse := by rw [hmrev]; exact List.mem_cons_self _ _
    simpa using this
  show (if '}' ∈ mid ++ b then
      some ('{' :: (List.dropWhile (fun c => !(c == '}')) (mid ++ b).reverse).reverse)
    else none) = some ('{' :: mid)
  rw [if_pos hmem]
  congr 1
  congr 1
  have hrevmb : (mid ++ b).reverse = b.reverse ++ ('}' :: mrev) := by
    rw [List.reverse_append, hmrev]
  rw [hrevmb, List.dropWhile_append]
  have hbrev : b.reverse.dropWhile (fun c => !(c == '}')) = [] := by
    rw [List.dropWhile_eq_nil_iff]
    intro x hx
    simp only [Bool.not_eq_true']
    refine beq_false_of_ne (fun hc => hb ?_)
    exact List.mem_reverse.mp (hc ▸ hx)
  rw [hbrev]
  simp only [List.isEmpty_nil, if_true]
  rw [List.dropWhile_cons]
  have hrr : ('}' :: mrev).reverse = mid := by rw [← hmrev, List.reverse_reverse]
  simp only [beq_self_eq_true, Bool.not_true, Bool.false_eq_true, if_false, hrr]

theorem braceSearch_none (s : List Char)
    (h : ∀ a b c, s ≠ a ++ '{' :: b ++ '}' :: c) :
    braceSearch s = none := by
  unfold braceSearch
  cases hdrop : s.dropWhile (fun c => !(c == '{')) with
  | nil => rfl
  | cons c t =>
    have hlen : 0 < (s.dropWhile (fun c => !(c == '{'))).length := by
      rw [hdrop]; simp
    have hc : c = '{' := by
      have hnot := List.dropWhile_get_zero_not (p := fun c => !(c == '{')) s hlen
      rw [List.get_of_eq hdrop] at hnot
      simpa using hnot
    by_cases hmem : '}' ∈ t
    · exfalso
      obtain ⟨t1, t2, rfl⟩ := List.append_of_mem hmem
      obtain ⟨tk, htk⟩ : ∃ tk, s.takeWhile (fun c => !(c == '{')) = tk := ⟨_, rfl⟩
      have hsplit : s = tk ++ (c :: (t1 ++ '}' :: t2)) := by
        rw [← htk, ← hdrop, List.takeWhile_append_dropWhile]
      refine h tk t1 t2 ?_
      rw [hsplit, hc]
      simp
    · simp [hmem]

/-! ## Properties of the interactive loop -/

theorem flatMapPairs_length (ps : List (List Char × List Char)) :
    (ps.flatMap (fun p => [p.1, p.2])).length = 2 * ps.length := by
  induction ps with
  | nil => rfl
  | cons q qs ih => simp [List.flatMap_cons, ih]; ring

theorem runInteractiveLoop_eq_append
    (query : List (List Char) → List Char → Option (List Char)) :
    ∀ (inputs : List (List Char)) (history : List (List Char)),
      runInteractiveLoop query history inputs
        = history ++ (successfulTurns query history inputs).flatMap (fun p => [p.1, p.2]) := by
  intro inputs
  induction inputs with
  | nil => intro history; simp [runInteractiveLoop, successfulTurns]
  | cons line rest ih =>
    intro history
    simp only [runInteractiveLoop, successfulTurns]
    by_cases h1 : trimSpace line = []
    · rw [if_pos h1, if_pos h1]
      exact ih history
    · rw [if_neg h1, if_neg h1]
      by_cases h2 : (exitCommand (trimSpace line) = true)
      · rw [if_pos h2, if_pos h2]
        simp
      · rw [if_neg h2, if_neg h2]
        cases hq : query history (trimSpace line) with
        | none => exact ih history
        | some response =>
          show runInteractiveLoop query (history ++ [trimSpace line, response]) rest
            = history ++ (((trimSpace line, response)
                :: successfulTurns query (history ++ [trimSpace line, response]) rest).flatMap
                  (fun p => [p.1, p.2]))
          rw [ih (history ++ [trimSpace line, response])]
          simp

/-! ## The claims -/

/-- C1 (amended).  For every input text, every detector and every finding
whose computed substitution secret (match field, or secret field when the
match is empty) is non-empty, the sanitized text returned by
`RedactWithDetails` does not contain that secret as a substring — provided
no computed secret shares a character with any placeholder assigned to the
findings (in particular, no placeholder contains or overlaps a secret).
Without that proviso the claim is false, see the counterexample. -/
theorem redact_removes_disjoint_secrets
    (detect : List Char → List Finding) (input : List Char) (verbose : Bool)
    (hdisj : ∀ f ∈ detect input, ∀ f' ∈ detect input,
      ∀ c ∈ substitutionSecret f, c ∉ getRedactionPlaceholder f'.RuleID f'.Description) :
    ∀ f ∈ detect input, substitutionSecret f ≠ [] →
      ¬ substitutionSecret f <:+: (RedactWithDetails detect input verbose).1 := by
  intro f hf hne
  by_cases hin : input = []
  · subst hin
    simp only [RedactWithDetails, if_pos rfl]
    intro h
    exact hne (List.infix_nil.mp h)
  · simp only [RedactWithDetails, if_neg hin]
    obtain ⟨ph, hpair⟩ := collectFindings_covers verbose (detect input) [] f hf hne
    obtain ⟨hcond, hdisj'⟩ := pairs_conditions detect input verbose hdisj
    exact redactPass_removes_secrets _ input hcond hdisj' (substitutionSecret f, ph) hpair

/-- Witness for C1: the redaction of a lower-case GitHub token, whose
characters are disjoint from every placeholder, removes it. -/
theorem redact_removes_disjoint_secrets_witness :
    (∀ f ∈ ghDetect ("x ghpabc".toList), ∀ f' ∈ ghDetect ("x ghpabc".toList),
      ∀ c ∈ substitutionSecret f, c ∉ getRedactionPlaceholder f'.RuleID f'.Description) ∧
    ghFinding ∈ ghDetect ("x ghpabc".toList) ∧
    substitutionSecret ghFinding ≠ [] ∧
    ¬ substitutionSecret ghFinding <:+: (RedactWithDetails ghDetect ("x ghpabc".toList) false).1 :=
  ⟨by decide, by simp [ghDetect], by decide,
    redact_removes_disjoint_secrets ghDetect ("x ghpabc".toList) false (by decide)
      ghFinding (by simp [ghDetect]) (by decide)⟩

/-- Counterexample to C1 as stated: the finding `tokenFinding` has the
non-empty secret `TOKEN`, which occurs verbatim in the input at
substitution time, yet the sanitized text still contains `TOKEN` — the
placeholder substituted for it contains the secret itself. -/
theorem redact_token_secret_survives_ce :
    substitutionSecret tokenFinding = ("TOKEN".toList) ∧
    ("TOKEN".toList) <:+: ("x TOKEN".toList) ∧
    ("TOKEN".toList) <:+: (RedactWithDetails tokenDetect ("x TOKEN".toList) false).1 := by
  refine ⟨by decide, by decide, ?_⟩
  have h : (RedactWithDetails tokenDetect ("x TOKEN".toList) false).1
      = ("x <REDACTED_TOKEN>".toList) := by
    simp [RedactWithDetails, collectFindings, redactPass, substitutionSecret, tokenFinding,
      tokenDetect, getRedactionPlaceholder, toLowerStr, toLowerChar, containsSub, countOcc,
      replaceAll]
  rw [h]
  decide

/-- C2 (amended).  For a fixed finding list (the detector returns the same
findings on both calls), redacting the already-redacted text yields the
same text with zero additional replacements — provided no computed secret
shares a character with any assigned placeholder (in particular placeholders
contain no stored secret).  Without that proviso the claim is false, see
the counterexample. -/
theorem redact_idempotent_disjoint
    (F : List Finding) (input : List Char) (verbose : Bool)
    (hdisj : ∀ f ∈ F, ∀ f' ∈ F,
      ∀ c ∈ substitutionSecret f, c ∉ getRedactionPlaceholder f'.RuleID f'.Description) :
    (RedactWithDetails (fun _ => F) ((RedactWithDetails (fun _ => F) input verbose).1) verbose).1
        = (RedactWithDetails (fun _ => F) input verbose).1 ∧
    (RedactWithDetails (fun _ => F) ((RedactWithDetails (fun _ => F) input verbose).1) verbose).2.1
        = 0 := by
  set S := (RedactWithDetails (fun _ => F) input verbose).1 with hS
  by_cases hSnil : S = []
  · rw [hSnil]
    constructor <;> simp [RedactWithDetails]
  · have hnos : ∀ pr ∈ (collectFindings verbose [] F).2, ¬ pr.1 <:+: S := by
      intro pr hpr
      by_cases hin : input = []
      · have : S = input := by
          rw [hS]
          simp only [RedactWithDetails, if_pos hin]
        exact absurd (this.trans hin) hSnil
      · obtain ⟨hcond, hdisj'⟩ := pairs_conditions (fun _ => F) input verbose hdisj
        have hremoved := redactPass_removes_secrets _ input hcond hdisj' pr hpr
        have : S = (redactPass (collectFindings verbose [] F).2 input).1 := by
          rw [hS]
          simp only [RedactWithDetails, if_neg hin]
        rw [this]
        exact hremoved
    have hnoop := redactPass_noop (collectFindings verbose [] F).2 S hnos
    constructor
    · simp only [RedactWithDetails, if_neg hSnil, hnoop]
    · simp only [RedactWithDetails, if_neg hSnil, hnoop]

/-- Witness for C2: redacting the redaction of `x ghpabc` changes nothing
and reports zero replacements. -/
theorem redact_idempotent_disjoint_witness :
    (∀ f ∈ ([ghFinding] : List Finding), ∀ f' ∈ ([ghFinding] : List Finding),
      ∀ c ∈ substitutionSecret f, c ∉ getRedactionPlaceholder f'.RuleID f'.Description) ∧
    ((RedactWithDetails (fun _ => [ghFinding])
        ((RedactWithDetails (fun _ => [ghFinding]) ("x ghpabc".toList) false).1) false).1
      = (RedactWithDetails (fun _ => [ghFinding]) ("x ghpabc".toList) false).1 ∧
    (RedactWithDetails (fun _ => [ghFinding])
        ((RedactWithDetails (fun _ => [ghFinding]) ("x ghpabc".toList) false).1) false).2.1
      = 0) :=
  ⟨by decide, redact_idempotent_disjoint [ghFinding] ("x ghpabc".toList) false (by decide)⟩

/-- Counterexample to C2 as stated: with the single finding `tokenFinding`
(fixed finding list), the first pass turns `TOKEN` into its placeholder,
and the second pass on that output performs one further replacement and
changes the text again. -/
theorem redact_not_idempotent_ce :
    (RedactWithDetails tokenDetect ("TOKEN".toList) false).1 = ("<REDACTED_TOKEN>".toList) ∧
    (RedactWithDetails tokenDetect (("<REDACTED_TOKEN>".toList)) false).1
      = ("<REDACTED_<REDACTED_TOKEN>>".toList) ∧
    (RedactWithDetails tokenDetect (("<REDACTED_TOKEN>".toList)) false).2.1 = 1 := by
  refine ⟨?_, ?_, ?_⟩ <;>
    simp [RedactWithDetails, collectFindings, redactPass, substitutionSecret, tokenFinding,
      tokenDetect, getRedactionPlaceholder, toLowerStr, toLowerChar, containsSub, countOcc,
      replaceAll]

/-- C3.  The advisory classifier follows the ordered three-state decision
table: a reply with status `no_problem` renders exactly the fixed
no-problems message (whatever the other fields), which contains neither a
Fix nor an Evidence heading; a reply with status `insufficient_data` and
evidence of two lines renders output containing the Evidence section and
the insufficient-data warning and no Fix section; a `problem_detected`
reply with root cause `X`, evidence `Y` and fix `Z` renders the Root
Cause, Evidence and Fix headings each followed by their text. -/
theorem advisory_classification_table :
    (∀ rc ev fx, formatResponse ⟨("no_problem".toList), rc, ev, fx⟩ = noProblemMessage) ∧
    containsSub noProblemMessage ("Fix".toList) = false ∧
    containsSub noProblemMessage ("Evidence".toList) = false ∧
    (∀ rc fx,
      containsSub (formatResponse ⟨("insufficient_data".toList), rc, ("line1\nline2".toList), fx⟩)
        ("Evidence".toList) = true ∧
      containsSub (formatResponse ⟨("insufficient_data".toList), rc, ("line1\nline2".toList), fx⟩)
        insufficientDataWarning = true ∧
      containsSub (formatResponse ⟨("insufficient_data".toList), rc, ("line1\nline2".toList), fx⟩)
        ("Fix".toList) = false) ∧
    (containsSub (formatResponse ⟨("problem_detected".toList), ("X".toList), ("Y".toList), ("Z".toList)⟩)
        ("Root Cause\n\nX".toList) = true ∧
     containsSub (formatResponse ⟨("problem_detected".toList), ("X".toList), ("Y".toList), ("Z".toList)⟩)
        ("Evidence\n\nY".toList) = true ∧
     containsSub (formatResponse ⟨("problem_detected".toList), ("X".toList), ("Y".toList), ("Z".toList)⟩)
        ("Fix\n\nZ".toList) = true) := by
  refine ⟨?_, by decide, by decide, ?_, ?_⟩
  · intro rc ev fx
    simp [formatResponse, toLowerStr, toLowerChar, trimSpace, isSpaceGo]
  · intro rc fx
    have hout : formatResponse ⟨("insufficient_data".toList), rc, ("line1\nline2".toList), fx⟩
        = ("Evidence\n\nline1\nline2\n\n⚠️  Problem detected but insufficient data for a clear solution. Please provide more context or logs.\n".toList) := by
      simp [formatResponse, renderLines, splitOnSub, toLowerStr, toLowerChar, trimSpace,
        isSpaceGo, insufficientDataWarning]
    rw [hout]
    refine ⟨by decide, ?_, by decide⟩
    rw [show insufficientDataWarning
        = ("⚠️  Problem detected but insufficient data for a clear solution. Please provide more context or logs.".toList) from rfl]
    decide
  · have hout : formatResponse ⟨("problem_detected".toList), ("X".toList), ("Y".toList), ("Z".toList)⟩
        = ("\nRoot Cause\n\nX\n\nEvidence\n\nY\n\nFix\n\nZ\n".toList) := by
      simp [formatResponse, renderLines, splitOnSub, toLowerStr, toLowerChar, trimSpace,
        isSpaceGo]
    rw [hout]
    exact ⟨by decide, by decide, by decide⟩

/-- C4.  Starting from the two-entry initial history, the history after the
loop equals the initial history followed by the question/answer pair of
each successfully completed turn, hence has exactly 2 + 2N entries in
strict user/assistant alternation starting with a user entry; and a turn
whose query fails leaves the history unchanged and the loop continues with
the remaining input. -/
theorem conversation_history_growth
    (query : List (List Char) → List Char → Option (List Char))
    (u0 a0 : List Char) (inputs : List (List Char)) :
    runInteractiveLoop query [u0, a0] inputs
      = [u0, a0] ++ (successfulTurns query [u0, a0] inputs).flatMap (fun p => [p.1, p.2]) ∧
    (runInteractiveLoop query [u0, a0] inputs).length
      = 2 + 2 * (successfulTurns query [u0, a0] inputs).length ∧
    (∀ history line rest, trimSpace line ≠ [] → exitCommand (trimSpace line) = false →
      query history (trimSpace line) = none →
      runInteractiveLoop query history (line :: rest) = runInteractiveLoop query history rest) := by
  refine ⟨runInteractiveLoop_eq_append query inputs [u0, a0], ?_, ?_⟩
  · rw [runInteractiveLoop_eq_append query inputs [u0, a0], List.length_append,
      flatMapPairs_length]
    rfl
  · intro history line rest h1 h2 hq
    simp only [runInteractiveLoop]
    rw [if_neg h1, if_neg (by simp [h2]), hq]

/-- Witness for C4: a failing query on input `boom` leaves the two-entry
history unchanged and the loop proceeds to the rest of the input. -/
theorem conversation_history_growth_witness :
    trimSpace ("boom".toList) ≠ [] ∧
    exitCommand (trimSpace ("boom".toList)) = false ∧
    noneQuery [("u".toList), ("a".toList)] (trimSpace ("boom".toList)) = none ∧
    runInteractiveLoop noneQuery [("u".toList), ("a".toList)] [("boom".toList)]
      = runInteractiveLoop noneQuery [("u".toList), ("a".toList)] [] :=
  ⟨by decide, by decide, rfl,
    (conversation_history_growth noneQuery ("u".toList) ("a".toList) []).2.2
      [("u".toList), ("a".toList)] ("boom".toList) [] (by decide) (by decide) rfl⟩

/-- C5.  The placeholder classifier is total on arbitrary string pairs and
coincides with the ordered first-match evaluation of the fixed priority
table (AWS access, AWS secret, AWS generic, GitHub, private key, API key,
bearer token, generic token, password, DB connection string) with the
generic-secret fallback; in particular two empty inputs yield the
fallback. -/
theorem placeholder_classifier_priority_table :
    (∀ ruleID description, getRedactionPlaceholder ruleID description
      = firstMatch (placeholderPriorityTable ruleID description) ("<REDACTED_SECRET>".toList)) ∧
    getRedactionPlaceholder [] [] = ("<REDACTED_SECRET>".toList) := by
  constructor
  · intro ruleID description
    unfold getRedactionPlaceholder placeholderPriorityTable
    simp only []
    split_ifs <;> simp_all [firstMatch]
  · rfl

/-- C6.  The extractor tries its three attempts in order and never fails:
when the fenced-block pattern matches, the result is exactly the trimmed
interior of the first such block; otherwise, when the text decomposes
around a span that runs from the first opening brace to the last closing
brace, the result is that trimmed span; otherwise the result is the
trimmed raw reply. -/
theorem extractJSON_attempt_order :
    (∀ s inner, fenceSearch s = some inner → extractJSON s = trimSpace inner) ∧
    (∀ s a span b, fenceSearch s = none → s = a ++ span ++ b →
      '{' ∉ a → '}' ∉ b → span.head? = some '{' → span.getLast? = some '}' →
      extractJSON s = trimSpace span) ∧
    (∀ s, fenceSearch s = none → (∀ a b c, s ≠ a ++ '{' :: b ++ '}' :: c) →
      extractJSON s = trimSpace s) := by
  refine ⟨?_, ?_, ?_⟩
  · intro s inner hfence
    unfold extractJSON
    rw [hfence]
  · intro s a span b hfence hdecomp ha hb hhead hlast
    unfold extractJSON
    rw [hfence, hdecomp, braceSearch_of_decomp a span b ha hb hhead hlast]
  · intro s hfence hnobrace
    unfold extractJSON
    rw [hfence, braceSearch_none s hnobrace]

/-- Witness for C6, one instance of each attempt: a fenced `json` block
yields its trimmed interior; a bare object in prose yields the brace span;
brace-free prose yields the trimmed input. -/
theorem extractJSON_attempt_order_witness :
    (fenceSearch ("```json\n\x7b\x7d\n```".toList) = some (" \x7b\x7d".toList) ∨
      fenceSearch ("```json\n\x7b\x7d\n```".toList) = some ("\x7b\x7d".toList)) ∧
    extractJSON ("```json\n\x7b\x7d\n```".toList) = trimSpace ("\x7b\x7d".toList) ∧
    fenceSearch ("ab\x7b1\x7dc".toList) = none ∧
    extractJSON ("ab\x7b1\x7dc".toList) = trimSpace ("\x7b1\x7d".toList) ∧
    fenceSearch (" hi ".toList) = none ∧
    extractJSON (" hi ".toList) = trimSpace (" hi ".toList) := by
  refine ⟨Or.inr (by decide), ?_, by decide, ?_, by decide, ?_⟩
  · exact extractJSON_attempt_order.1 ("```json\n\x7b\x7d\n```".toList) ("\x7b\x7d".toList)
      (by decide)
  · exact extractJSON_attempt_order.2.1 ("ab\x7b1\x7dc".toList) ("ab".toList)
      ("\x7b1\x7d".toList) ("c".toList) (by decide) (by decide) (by decide) (by decide)
      (by decide) (by decide)
  · refine extractJSON_attempt_order.2.2 (" hi ".toList) (by decide) ?_
    intro a b c heq
    have hmem : '{' ∈ (" hi ".toList) := by
      rw [heq]
      exact List.mem_append_left _ (List.mem_append_right a (List.mem_cons_self '{' b))
    exact absurd hmem (by decide)

/-- C7 (amended).  With `verbose = true` and a non-empty input,
`RedactWithDetails` records one provenance detail entry, in detector order
and without deduplication, for every finding whose computed substitution
secret is non-empty; findings whose match and secret are both empty are
skipped before the detail entry is appended, so the number of entries
equals the number of findings with a non-empty computed secret (not the
total number of findings — see the counterexample). -/
theorem verbose_details_nonempty_secrets
    (detect : List Char → List Finding) (input : List Char) (hin : input ≠ []) :
    (RedactWithDetails detect input true).2.2
        = ((detect input).filter (fun f => substitutionSecret f != [])).map mkDetail ∧
    (RedactWithDetails detect input true).2.2.length
        = ((detect input).filter (fun f => substitutionSecret f != [])).length := by
  have h : (RedactWithDetails detect input true).2.2 = (collectFindings true [] (detect input)).1 := by
    simp only [RedactWithDetails, if_neg hin]
  rw [h, collectFindings_details]
  simp

/-- Witness for C7: one finding with a non-empty secret yields exactly its
one detail entry. -/
theorem verbose_details_nonempty_secrets_witness :
    ("x".toList ≠ ([] : List Char)) ∧
    (RedactWithDetails ghDetect ("x".toList) true).2.2
      = ((ghDetect ("x".toList)).filter (fun f => substitutionSecret f != [])).map mkDetail ∧
    (RedactWithDetails ghDetect ("x".toList) true).2.2.length
      = ((ghDetect ("x".toList)).filter (fun f => substitutionSecret f != [])).length :=
  ⟨by decide, (verbose_details_nonempty_secrets ghDetect ("x".toList) (by decide)).1,
    (verbose_details_nonempty_secrets ghDetect ("x".toList) (by decide)).2⟩

/-- Counterexample to C7 as stated: a detector returning one finding whose
match and secret are both empty produces zero detail entries, not one per
finding. -/
theorem verbose_details_not_all_findings_ce :
    (RedactWithDetails (fun _ => [emptyFinding]) ("x".toList) true).2.2.length = 0 ∧
    ((fun (_ : List Char) => [emptyFinding]) ("x".toList)).length = 1 := by
  constructor
  · simp [RedactWithDetails, collectFindings, emptyFinding, substitutionSecret]
  · simp

/-- C8.  Evidence supplied as a JSON array of strings is normalised at
parse time to one newline-joined string — the array of `a` and `b` parses
to the two-line string — and evidence supplied as a plain JSON string
parses to that string unchanged. -/
theorem evidence_array_normalizes_to_joined_string :
    evidenceFromJson (.arr [.str ("a".toList), .str ("b".toList)]) = .ok ("a\nb".toList) ∧
    (∀ s, evidenceFromJson (.str s) = .ok s) := by
  constructor
  · rfl
  · intro s; rfl

/-- C9.  Whenever the JSON decode of the extracted candidate fails, the
classifier is never invoked: the advisory returned (with no error) is the
parse-error note followed by the full untouched raw reply, of which the
raw reply is a suffix. -/
theorem advise_surfaces_raw_reply_on_parse_failure
    (parse : List Char → Except (List Char) LLMResponse)
    (response e : List Char)
    (h : parse (extractJSON response) = .error e) :
    adviseFormat parse response
      = ("Error parsing LLM response: failed to parse JSON: ".toList) ++ e
        ++ ("\n\nRaw response:\n".toList) ++ response ∧
    response <:+ adviseFormat parse response := by
  have hfmt : adviseFormat parse response
      = ("Error parsing LLM response: ".toList) ++ (("failed to parse JSON: ".toList) ++ e)
        ++ ("\n\nRaw response:\n".toList) ++ response := by
    unfold adviseFormat parseAndFormatResponse
    simp only []
    rw [h]
  constructor
  · rw [hfmt]
    simp [List.append_assoc]
  · rw [hfmt]
    exact ⟨_, rfl⟩

/-- Witness for C9: a decoder that always fails makes the advisory carry
the error note and the raw reply `hello`. -/
theorem advise_surfaces_raw_reply_on_parse_failure_witness :
    failParse (extractJSON ("hello".toList)) = .error ("bad".toList) ∧
    adviseFormat failParse ("hello".toList)
      = ("Error parsing LLM response: failed to parse JSON: ".toList) ++ ("bad".toList)
        ++ ("\n\nRaw response:\n".toList) ++ ("hello".toList) ∧
    ("hello".toList) <:+ adviseFormat failParse ("hello".toList) :=
  ⟨rfl,
    (advise_surfaces_raw_reply_on_parse_failure failParse ("hello".toList) ("bad".toList) rfl).1,
    (advise_surfaces_raw_reply_on_parse_failure failParse ("hello".toList) ("bad".toList) rfl).2⟩

/-- C10.  Classification is invariant under letter case and surrounding
white-space of the status field: rendering a reply with status `s`
produces exactly the same output as rendering it with the lower-cased,
trimmed status. -/
theorem classification_invariant_under_status_case (st rc ev fx : List Char) :
    formatResponse ⟨st, rc, ev, fx⟩ = formatResponse ⟨toLowerStr (trimSpace st), rc, ev, fx⟩ := by
  simp only [formatResponse]
  rw [statusNorm_idem]

end Que
